import Mathlib

/-!
Verification development for the sEMG gesture-recognition firmware:
Random-Forest inference (fixed-point Q8.8 arithmetic, iterative tree
traversal with a fail-closed guard, vote tallying and argmax), the
temporal voting buffer, the FreeRTOS queue drop behaviour at the task
call sites, and the 256-sample / 50%-overlap sliding windower.

All definitions are shallow embeddings of the C sources.  C machine
integers are modelled as Nat or Int with explicit wrapping where the C
code can wrap; arrays are modelled as lists accessed with getD and
updated with set (an out-of-range set is a no-op, mirroring that the C
write would land outside the logical array).
-/

namespace EmgRf

/-! ### Q8.8 fixed-point arithmetic (part_005, fixed_mul / normalize_feature) -/

/-- Wrap an integer to the int16 range, modelling a C cast to
fixed_point_t (int16_t). -/
def toInt16 (x : Int) : Int := (x + 32768) % 65536 - 32768

/-- fixed_mul from part_005 lines 87-90: widen to int32, multiply,
arithmetic right shift by 8 (floor division by 256), cast back to
int16.  The int32 product of two int16 values never overflows, so the
only wrap is the final cast. -/
def fixed_mul (a b : Int) : Int := toInt16 (Int.fdiv (a * b) 256)

/-- normalize_feature from part_005 lines 99-105:
fixed_mul(fixed_raw - offset, scale).  The FLOAT_TO_FIXED conversion of
the raw float is modelled by taking the already-converted Q8.8 integer
fixed_raw as input; the int-typed difference is wrapped to int16 when
passed as the first fixed_point_t argument of fixed_mul. -/
def normalize_feature (fixed_raw scale offset : Int) : Int :=
  fixed_mul (toInt16 (fixed_raw - offset)) scale

/-! ### Decision-tree model (part_005, section 1.1) -/

/-- RF_Node_t: feature index, packed type byte (bit 7 = leaf flag, low
7 bits = class label), Q8.8 threshold, child indices.  The two padding
bytes carry no data and are omitted. -/
structure RF_Node where
  feature_idx : Nat
  node_type : Nat
  threshold : Int
  left_child : Nat
  right_child : Nat
deriving DecidableEq

def defaultNode : RF_Node :=
  { feature_idx := 0, node_type := 0, threshold := 0
    left_child := 0, right_child := 0 }

/-- RF_Tree_t: node array, node count, root index. -/
structure RF_Tree where
  nodes : List RF_Node
  n_nodes : Nat
  root_idx : Nat
deriving DecidableEq

def defaultTree : RF_Tree := { nodes := [], n_nodes := 0, root_idx := 0 }

/-- Reading tree->nodes[idx]; the physical C array always yields some
node, modelled with a default for indices beyond the list. -/
def getNode (tree : RF_Tree) (idx : Nat) : RF_Node :=
  tree.nodes.getD idx defaultNode

/-- Test of bit 7 of the node_type byte, node->node_type and 0x80. -/
def isLeafNode (n : RF_Node) : Bool := (n.node_type &&& 128) != 0

/-- Class label of a leaf, node->node_type and 0x7F. -/
def leafLabel (n : RF_Node) : Nat := n.node_type &&& 127

/-- Outcome of one iterative traversal: a leaf class, the fail-closed
branch (child index fell outside the node count), or fuel exhaustion
(the model of the C while(1) loop not terminating within the given
number of node visits). -/
inductive TreeResult where
  | leaf (c : Nat)
  | failClosed
  | timeout
deriving DecidableEq

/-- The child index the loop steps to at an internal node: the left
child when features[feature_idx] ≤ threshold, the right child
otherwise. -/
def childOf (tree : RF_Tree) (features : List Int) (idx : Nat) : Nat :=
  let node := getNode tree idx
  if features.getD node.feature_idx 0 ≤ node.threshold then node.left_child
  else node.right_child

/-- The loop body of RF_TreePredict (part_005 lines 112-135), one
constructor of fuel per node visit.  Dereference the current node
first; if it is a leaf return its label; otherwise step to the chosen
child and apply the guard (child index at or past n_nodes returns the
default class) before the next dereference. -/
def treeTraverse (tree : RF_Tree) (features : List Int) :
    Nat → Nat → TreeResult
  | 0, _ => .timeout
  | fuel + 1, idx =>
    let node := getNode tree idx
    if isLeafNode node then .leaf (leafLabel node)
    else
      if tree.n_nodes ≤ childOf tree features idx then .failClosed
      else treeTraverse tree features fuel (childOf tree features idx)

/-- The list of node-array indices that RF_TreePredict dereferences,
in order, when run with the given fuel from the given start index. -/
def accessTrace (tree : RF_Tree) (features : List Int) :
    Nat → Nat → List Nat
  | 0, _ => []
  | fuel + 1, idx =>
    let node := getNode tree idx
    if isLeafNode node then [idx]
    else
      if tree.n_nodes ≤ childOf tree features idx then [idx]
      else idx :: accessTrace tree features fuel (childOf tree features idx)

/-- RF_TreePredict as seen by its caller: the returned uint8_t vote.
A leaf returns its label, the fail-closed branch returns 0, and a run
that exhausts its fuel (the C loop never exiting) returns none. -/
def RF_TreePredict (tree : RF_Tree) (features : List Int) (fuel : Nat) :
    Option Nat :=
  match treeTraverse tree features fuel tree.root_idx with
  | .leaf c => some c
  | .failClosed => some 0
  | .timeout => none

/-! ### The forest model and RF_Predict (part_005 lines 144-184) -/

/-- RF_Model_t: trees plus counts and the per-feature Q8.8
normalisation parameters. -/
structure RF_Model where
  trees : List RF_Tree
  n_trees : Nat
  n_features : Nat
  n_classes : Nat
  feature_scale : List Int
  feature_offset : List Int
deriving DecidableEq

/-- Step 1 of RF_Predict: the loop filling normalized_features[i] for
i < n_features from the per-feature scale and offset. -/
def normalizedFeatures (m : RF_Model) (fixedRaw : List Int) : List Int :=
  (List.range m.n_features).map fun i =>
    normalize_feature (fixedRaw.getD i 0) (m.feature_scale.getD i 0)
      (m.feature_offset.getD i 0)

/-- Step 2 of RF_Predict: one RF_TreePredict call per tree index
t < n_trees, each yielding an optional vote (none models a traversal
that never terminates). -/
def predsOf (m : RF_Model) (features : List Int) (fuel : Nat) :
    List (Option Nat) :=
  (List.range m.n_trees).map fun t =>
    RF_TreePredict (m.trees.getD t defaultTree) features fuel

/-- Collect a list of optional votes into an optional list: the whole
prediction returns only if every tree traversal returns. -/
def seqOptions : List (Option Nat) → Option (List Nat)
  | [] => some []
  | none :: _ => none
  | some x :: rest => (seqOptions rest).map (x :: ·)

/-- The vote tally of RF_Predict: uint8_t votes[29] initialised to
zero, and votes[prediction]++ for every tree vote below n_classes. -/
def tally (preds : List Nat) (nClasses : Nat) : List Nat :=
  preds.foldl
    (fun v p => if p < nClasses then v.set p (v.getD p 0 + 1) else v)
    (List.replicate 29 0)

/-- The argmax loop shared by RF_Predict step 3 and
Voting_GetMajority: scan c = 0..n-1 keeping the first class whose
count strictly exceeds the running maximum, starting from (0, 0). -/
def argmaxLoop (votes : List Nat) (n : Nat) : Nat × Nat :=
  (List.range n).foldl
    (fun bm c => if votes.getD c 0 > bm.2 then (c, votes.getD c 0) else bm)
    (0, 0)

/-- RF_Predict (part_005 lines 144-184): normalise, collect one vote
per tree, tally, take the argmax, and report
confidence = (max_votes * 100) / n_trees through the non-null
confidence out-parameter.  Returns none when some tree traversal does
not terminate within the fuel. -/
def RF_Predict (m : RF_Model) (fixedRaw : List Int) (fuel : Nat) :
    Option (Nat × Nat) :=
  (seqOptions (predsOf m (normalizedFeatures m fixedRaw) fuel)).map
    fun preds =>
      let votes := tally preds m.n_classes
      let bm := argmaxLoop votes m.n_classes
      (bm.1, bm.2 * 100 / m.n_trees)

/-- The tally RF_Predict computes, exposed for the statements about
the winning class (empty when the prediction does not terminate). -/
def votesOf (m : RF_Model) (fixedRaw : List Int) (fuel : Nat) : List Nat :=
  tally ((seqOptions (predsOf m (normalizedFeatures m fixedRaw) fuel)).getD [])
    m.n_classes

/-! ### Temporal voting buffer (part_005 lines 191-240) -/

/-- VotingBuffer_t: two length-3 circular arrays, a write index and a
fill count. -/
structure VotingBuffer where
  predictions : List Nat
  confidences : List Nat
  write_idx : Nat
  count : Nat
deriving DecidableEq

/-- The zero-initialised buffer, VotingBuffer_t voting_buffer = {0}. -/
def emptyVotingBuffer : VotingBuffer :=
  { predictions := List.replicate 3 0, confidences := List.replicate 3 0
    write_idx := 0, count := 0 }

/-- Voting_AddPrediction (part_005 lines 199-206). -/
def Voting_AddPrediction (b : VotingBuffer) (p c : Nat) : VotingBuffer :=
  { predictions := b.predictions.set b.write_idx p
    confidences := b.confidences.set b.write_idx c
    write_idx := (b.write_idx + 1) % 3
    count := if b.count < 3 then b.count + 1 else b.count }

/-- The weighted_votes array of Voting_GetMajority: per-class summed
confidence over the first count entries. -/
def weightedVotes (b : VotingBuffer) : List Nat :=
  (List.range b.count).foldl
    (fun w i =>
      w.set (b.predictions.getD i 0)
        (w.getD (b.predictions.getD i 0) 0 + b.confidences.getD i 0))
    (List.replicate 29 0)

/-- The total_weight accumulator of Voting_GetMajority. -/
def totalWeight (b : VotingBuffer) : Nat :=
  (List.range b.count).foldl (fun t i => t + b.confidences.getD i 0) 0

/-- Voting_GetMajority (part_005 lines 209-240) with the final
confidence modelled by explicit out-parameter passing: conf_in is the
value the pointee holds before the call and the second component of
the result is the value it holds after.  On an empty buffer the
function returns 0 without writing the pointee; it also leaves the
pointee untouched when total_weight is zero. -/
def Voting_GetMajority (b : VotingBuffer) (conf_in : Nat) : Nat × Nat :=
  if b.count = 0 then (0, conf_in)
  else
    let w := weightedVotes b
    let bm := argmaxLoop w 29
    let conf_out :=
      if 0 < totalWeight b then bm.2 * 100 / totalWeight b else conf_in
    (bm.1, conf_out)

/-! ### FreeRTOS queue behaviour at the task call sites (main.c) -/

/-- A fixed-capacity FIFO queue as created by xQueueCreate. -/
structure FifoQueue (α : Type) where
  capacity : Nat
  items : List α
deriving DecidableEq

/-- The push pattern of EMG_AcquisitionTask (main.c lines 174-177):
xQueueSend with zero timeout appends to the back when there is space
and otherwise fails leaving the queue unchanged, in which case the
task increments the drop counter.  Returns the queue and counter after
the push. -/
def queueSendDrop {α : Type} (q : FifoQueue α) (x : α) (dropped : Nat) :
    FifoQueue α × Nat :=
  if q.items.length < q.capacity then
    ({ q with items := q.items ++ [x] }, dropped)
  else (q, dropped + 1)

/-- Pushing a whole sequence through queueSendDrop. -/
def pushAll {α : Type} (q : FifoQueue α) (xs : List α) (dropped : Nat) :
    FifoQueue α × Nat :=
  xs.foldl (fun s x => queueSendDrop s.1 x s.2) (q, dropped)

/-! ### Sliding windower (main.c DSP_ProcessingTask lines 210-241) -/

/-- The windowing state of DSP_ProcessingTask: the first window_idx
slots of window_buffer, plus the windows handed to feature extraction
so far (oldest first). -/
structure WindowState where
  buf : List Int
  wins : List (List Int)
deriving DecidableEq

/-- One loop iteration of DSP_ProcessingTask per sample: store the
sample at window_idx and advance; when the buffer reaches WINDOW_SIZE
(256) emit the full window and shift it left by WINDOW_OVERLAP (128),
keeping the most recent 128 samples. -/
def windowStep (s : WindowState) (x : Int) : WindowState :=
  let buf := s.buf ++ [x]
  if 256 ≤ buf.length then
    { buf := buf.drop 128, wins := s.wins ++ [buf] }
  else { buf := buf, wins := s.wins }

/-- Processing a continuous sample stream from the empty buffer. -/
def windowRun (xs : List Int) : WindowState :=
  xs.foldl windowStep { buf := [], wins := [] }

/-- The number of windows the stream of length n yields. -/
def numWindows (n : Nat) : Nat :=
  if n < 256 then 0 else (n - 256) / 128 + 1

/-! ### Helper lemmas -/

theorem getD_set (l : List Nat) (i j x : Nat) :
    (l.set i x).getD j 0 =
      if i = j ∧ j < l.length then x else l.getD j 0 := by
  induction l generalizing i j with
  | nil => simp [List.set]
  | cons a l ih =>
    cases i with
    | zero =>
      cases j with
      | zero => simp
      | succ j => simp
    | succ i =>
      cases j with
      | zero => simp
      | succ j =>
        simp only [List.set, List.getD_cons_succ, ih i j, List.length_cons]
        by_cases h : i = j ∧ j < l.length
        · rw [if_pos h, if_pos ⟨by omega, by omega⟩]
        · rw [if_neg h, if_neg (by omega)]

theorem getD_replicate_zero (n j : Nat) :
    (List.replicate n (0 : Nat)).getD j 0 = 0 := by
  rcases Nat.lt_or_ge j n with h | h
  · rw [List.getD_eq_getElem _ _ (by simpa using h)]
    simp
  · rw [List.getD_eq_default]
    simpa using h

theorem argmaxLoop_succ (votes : List Nat) (n : Nat) :
    argmaxLoop votes (n + 1) =
      if votes.getD n 0 > (argmaxLoop votes n).2 then (n, votes.getD n 0)
      else argmaxLoop votes n := by
  unfold argmaxLoop
  rw [List.range_succ, List.foldl_append]
  rfl

/-- The argmax loop scans classes in increasing order with a strict
comparison, so it returns the least index attaining the maximum count
(and (0, 0) when every count is zero). -/
theorem argmaxLoop_spec (votes : List Nat) (n : Nat) :
    (∀ c, c < n → votes.getD c 0 ≤ (argmaxLoop votes n).2) ∧
    (∀ c, c < (argmaxLoop votes n).1 →
      votes.getD c 0 < (argmaxLoop votes n).2) ∧
    ((argmaxLoop votes n).2 ≠ 0 → (argmaxLoop votes n).1 < n ∧
      votes.getD (argmaxLoop votes n).1 0 = (argmaxLoop votes n).2) ∧
    ((argmaxLoop votes n).2 = 0 → (argmaxLoop votes n).1 = 0) := by
  induction n with
  | zero =>
    refine ⟨fun c hc => absurd hc (Nat.not_lt_zero c), ?_, ?_, ?_⟩ <;>
      simp [argmaxLoop]
  | succ n ih =>
    obtain ⟨ih1, ih2, ih3, ih4⟩ := ih
    rw [argmaxLoop_succ]
    by_cases h : votes.getD n 0 > (argmaxLoop votes n).2
    · rw [if_pos h]
      refine ⟨?_, ?_, ?_, ?_⟩
      · intro c hc
        rcases Nat.lt_or_ge c n with hlt | hge
        · exact le_of_lt (lt_of_le_of_lt (ih1 c hlt) h)
        · have : c = n := by omega
          simp [this]
      · intro c hc
        exact lt_of_le_of_lt (ih1 c hc) h
      · intro _
        exact ⟨Nat.lt_succ_self n, rfl⟩
      · intro hz
        omega
    · rw [if_neg h]
      refine ⟨?_, ih2, ?_, ih4⟩
      · intro c hc
        rcases Nat.lt_or_ge c n with hlt | hge
        · exact ih1 c hlt
        · have : c = n := by omega
          subst this
          omega
      · intro hz
        exact ⟨lt_trans (ih3 hz).1 (Nat.lt_succ_self n), (ih3 hz).2⟩

/-- The concrete voting-buffer state after inserting the pair
(class 2, confidence 90) three times into the zero buffer. -/
def b3 : VotingBuffer :=
  Voting_AddPrediction
    (Voting_AddPrediction (Voting_AddPrediction emptyVotingBuffer 2 90) 2 90)
    2 90

/-! ### Claim theorems -/

/-- C5 counterexample: with queue capacity 1, pushing the three
windows 10, 20, 30 before any consumption leaves the drop counter at 2
but the queue retains the OLDEST window 10, not the most recent
window 30 — xQueueSend with zero timeout fails on a full queue and
discards the new entry, never the oldest one. -/
theorem c5_counterexample :
    (pushAll { capacity := 1, items := ([] : List Nat) } [10, 20, 30] 0).2
        = 2 ∧
    (pushAll { capacity := 1, items := ([] : List Nat) } [10, 20, 30] 0).1.items
        = [10] ∧
    (pushAll { capacity := 1, items := ([] : List Nat) } [10, 20, 30] 0).1.items
        ≠ [30] := by
  decide

/-- C5 amended: when the fixed-capacity queue is full on push, the
NEW entry is discarded (the send fails leaving the queue unchanged)
and the drop counter is incremented, so the queue retains the oldest
unconsumed data; with capacity 1, pushing 3 windows before any
consumption yields a drop count of 2 and the queue retaining only the
first window. -/
theorem c5_amended :
    (∀ (q : FifoQueue Nat) (x d : Nat), q.capacity ≤ q.items.length →
      queueSendDrop q x d = (q, d + 1)) ∧
    pushAll { capacity := 1, items := ([] : List Nat) } [10, 20, 30] 0 =
      ({ capacity := 1, items := [10] }, 2) := by
  refine ⟨?_, by decide⟩
  intro q x d h
  unfold queueSendDrop
  rw [if_neg (by omega)]

/-- C5 witness: a full capacity-1 queue on a concrete push is left
unchanged and the drop counter advances. -/
theorem c5_witness :
    ({ capacity := 1, items := [10] } : FifoQueue Nat).capacity ≤
      ({ capacity := 1, items := [10] } : FifoQueue Nat).items.length ∧
    queueSendDrop ({ capacity := 1, items := [10] } : FifoQueue Nat) 99 0 =
      ({ capacity := 1, items := [10] }, 1) :=
  ⟨by decide, c5_amended.1 { capacity := 1, items := [10] } 99 0 (by decide)⟩

theorem toInt16_eq_self (x : Int) (h1 : -32768 ≤ x) (h2 : x < 32768) :
    toInt16 x = x := by
  unfold toInt16
  rw [Int.emod_eq_of_lt (by omega) (by omega)]
  omega

/-- C7 counterexample: normalising the raw Q8.8 value 16 with scale
24 and offset 0 forms the product 384 = 1.5 in Q8.8 units; the final
right shift yields 1 (floor), whereas a round-half-up shift would
yield (384 + 128) / 256 = 2. -/
theorem c7_counterexample :
    normalize_feature 16 24 0 = 1 ∧
    ((16 - 0) * 24 + 128) / 256 = (2 : Int) ∧ (1 : Int) ≠ 2 := by
  decide

/-- C7 amended: feature normalisation computes (value − offset) ×
scale in Q8.8 fixed-point, and the final right shift by the 8
fractional bits is an arithmetic shift rounding toward negative
infinity (floor), not half-up: whenever the intermediate difference
and the shifted product stay inside the int16 range, the result is
exactly the floor division of the widened product by 256. -/
theorem c7_amended (raw scale offset : Int)
    (h1 : -32768 ≤ raw - offset) (h2 : raw - offset < 32768)
    (h3 : -32768 ≤ Int.fdiv ((raw - offset) * scale) 256)
    (h4 : Int.fdiv ((raw - offset) * scale) 256 < 32768) :
    normalize_feature raw scale offset =
      Int.fdiv ((raw - offset) * scale) 256 := by
  unfold normalize_feature fixed_mul
  rw [toInt16_eq_self _ h1 h2, toInt16_eq_self _ h3 h4]

/-- C7 witness: the amended statement at raw 16, scale 24, offset 0,
where the floor-rounded result is 1. -/
theorem c7_witness :
    ((-32768 : Int) ≤ 16 - 0 ∧ (16 : Int) - 0 < 32768 ∧
      (-32768 : Int) ≤ Int.fdiv ((16 - 0) * 24) 256 ∧
      Int.fdiv (((16 : Int) - 0) * 24) 256 < 32768) ∧
    normalize_feature 16 24 0 = Int.fdiv ((16 - 0) * 24) 256 :=
  ⟨by decide,
    c7_amended 16 24 0 (by decide) (by decide) (by decide) (by decide)⟩

/-- C8 counterexample: after inserting (class 2, confidence 90) three
times into the empty voting buffer, Voting_GetMajority reports final
class 2 but final confidence 100 × 270 / 270 = 100, not 90. -/
theorem c8_counterexample :
    Voting_GetMajority b3 0 = (2, 100) ∧ (100 : Nat) ≠ 90 := by
  decide

/-- C8 amended: inserting (class 2, confidence 90) three times yields
final class 2 with final confidence 100; in general, whenever the
summed confidence of the buffered entries is positive, the final
confidence equals floor(100 × winner_total / sum_of_all_confidences),
where winner_total is the winning class entry of the weighted-vote
array. -/
theorem c8_amended :
    Voting_GetMajority b3 0 = (2, 100) ∧
    ∀ (b : VotingBuffer) (ci : Nat), 0 < totalWeight b →
      (Voting_GetMajority b ci).2 =
        (weightedVotes b).getD (Voting_GetMajority b ci).1 0 * 100 /
          totalWeight b := by
  refine ⟨by decide, ?_⟩
  intro b ci h
  have hc : b.count ≠ 0 := by
    intro hc
    rw [totalWeight, hc] at h
    simp [List.range_zero] at h
  obtain ⟨s1, _, s3, s4⟩ := argmaxLoop_spec (weightedVotes b) 29
  unfold Voting_GetMajority
  rw [if_neg hc]
  simp only [if_pos h]
  by_cases hz : (argmaxLoop (weightedVotes b) 29).2 = 0
  · rw [hz, s4 hz]
    have h0 : (weightedVotes b).getD 0 0 = 0 := by
      have := s1 0 (by omega)
      omega
    rw [h0]
  · rw [(s3 hz).2]

/-- C8 witness: the amended general confidence formula applied to the
concrete triple-insert buffer, whose total weight 270 is positive. -/
theorem c8_witness :
    0 < totalWeight b3 ∧
    (Voting_GetMajority b3 0).2 =
      (weightedVotes b3).getD (Voting_GetMajority b3 0).1 0 * 100 /
        totalWeight b3 :=
  ⟨by decide, c8_amended.2 b3 0 (by decide)⟩

/-- C9 counterexample: on the empty voting buffer the final
confidence out-parameter is never written — a caller whose variable
previously held 5 still reads 5 after the call, not 0. -/
theorem c9_counterexample :
    Voting_GetMajority emptyVotingBuffer 5 = (0, 5) ∧
    (Voting_GetMajority emptyVotingBuffer 5).2 ≠ 0 := by
  decide

/-- C9 amended: when the voting buffer contains no entries,
Voting_GetMajority returns class 0 and leaves the final-confidence
out-parameter untouched (its prior value is preserved), rather than
writing 0 into it. -/
theorem c9_amended (b : VotingBuffer) (ci : Nat) (h : b.count = 0) :
    Voting_GetMajority b ci = (0, ci) := by
  unfold Voting_GetMajority
  rw [if_pos h]

/-- C9 witness: the amended statement on the concrete empty buffer
with prior pointee value 7. -/
theorem c9_witness :
    emptyVotingBuffer.count = 0 ∧
    Voting_GetMajority emptyVotingBuffer 7 = (0, 7) :=
  ⟨rfl, c9_amended emptyVotingBuffer 7 rfl⟩

theorem seqOptions_length (l : List (Option Nat)) (xs : List Nat)
    (h : seqOptions l = some xs) : xs.length = l.length := by
  induction l generalizing xs with
  | nil =>
    unfold seqOptions at h
    cases h
    rfl
  | cons o rest ih =>
    cases o with
    | none => exact absurd h (by unfold seqOptions; simp)
    | some x =>
      unfold seqOptions at h
      rw [Option.map_eq_some'] at h
      obtain ⟨ys, hys, hxs⟩ := h
      subst hxs
      simp [ih ys hys]

theorem predsOf_length (m : RF_Model) (features : List Int) (fuel : Nat) :
    (predsOf m features fuel).length = m.n_trees := by
  simp [predsOf]

theorem tally_getD_le_aux (nC : Nat) (preds : List Nat) (v : List Nat)
    (c : Nat) :
    ((preds.foldl
        (fun v p => if p < nC then v.set p (v.getD p 0 + 1) else v)
        v).getD c 0) ≤ v.getD c 0 + preds.length := by
  induction preds generalizing v with
  | nil => simp
  | cons p rest ih =>
    rw [List.foldl_cons]
    have hstep :
        ((if p < nC then v.set p (v.getD p 0 + 1) else v).getD c 0) ≤
          v.getD c 0 + 1 := by
      by_cases hp : p < nC
      · rw [if_pos hp, getD_set]
        by_cases hc : p = c ∧ c < v.length
        · rw [if_pos hc]
          rw [hc.1]
        · rw [if_neg hc]
          omega
      · rw [if_neg hp]
        omega
    have := ih (if p < nC then v.set p (v.getD p 0 + 1) else v)
    simp only [List.length_cons]
    omega

/-- Every per-class tally entry is at most the number of tree votes. -/
theorem tally_getD_le (preds : List Nat) (nC c : Nat) :
    (tally preds nC).getD c 0 ≤ preds.length := by
  unfold tally
  have h := tally_getD_le_aux nC preds (List.replicate 29 0) c
  rwa [getD_replicate_zero, Nat.zero_add] at h

/-- Decomposition of a terminating RF_Predict call into the tree
votes, the tally, and the argmax loop it runs. -/
theorem RF_Predict_eq (m : RF_Model) (raw : List Int) (fuel : Nat)
    (cls conf : Nat) (hp : RF_Predict m raw fuel = some (cls, conf)) :
    ∃ preds,
      seqOptions (predsOf m (normalizedFeatures m raw) fuel) = some preds ∧
      votesOf m raw fuel = tally preds m.n_classes ∧
      preds.length = m.n_trees ∧
      cls = (argmaxLoop (tally preds m.n_classes) m.n_classes).1 ∧
      conf = (argmaxLoop (tally preds m.n_classes) m.n_classes).2 * 100 /
        m.n_trees := by
  unfold RF_Predict at hp
  rw [Option.map_eq_some'] at hp
  obtain ⟨preds, hseq, heq⟩ := hp
  have h1 := congrArg Prod.fst heq
  have h2 := congrArg Prod.snd heq
  simp only at h1 h2
  refine ⟨preds, hseq, ?_, ?_, h1.symm, h2.symm⟩
  · unfold votesOf
    rw [hseq]
    rfl
  · have := seqOptions_length _ _ hseq
    rwa [predsOf_length] at this

/-- C2: for every loaded model (class count between 1 and the size 29
of the vote array) and every feature vector, whenever RF_Predict
terminates it returns the argmax of the per-class vote counts tallied
across all trees, and on equal vote counts the lower class index wins:
the returned class is in range, its count is maximal, and every
strictly lower class has a strictly smaller count.  The embedding is a
pure function of the model and features, so repeated identical calls
are identical by definition. -/
theorem c2_argmax_tiebreak (m : RF_Model) (fixedRaw : List Int)
    (fuel : Nat) (cls conf : Nat)
    (hcls : 1 ≤ m.n_classes) (hcap : m.n_classes ≤ 29)
    (hp : RF_Predict m fixedRaw fuel = some (cls, conf)) :
    cls < m.n_classes ∧
    (∀ c, c < m.n_classes →
      (votesOf m fixedRaw fuel).getD c 0 ≤
        (votesOf m fixedRaw fuel).getD cls 0) ∧
    (∀ c, c < cls →
      (votesOf m fixedRaw fuel).getD c 0 <
        (votesOf m fixedRaw fuel).getD cls 0) := by
  obtain ⟨preds, _, hv, _, hcls_eq, _⟩ := RF_Predict_eq m fixedRaw fuel cls conf hp
  obtain ⟨s1, s2, s3, s4⟩ := argmaxLoop_spec (tally preds m.n_classes) m.n_classes
  rw [hv]
  set bm := argmaxLoop (tally preds m.n_classes) m.n_classes with hbm
  have hmax : (tally preds m.n_classes).getD cls 0 = bm.2 := by
    by_cases hz : bm.2 = 0
    · rw [hcls_eq, s4 hz, hz]
      have := s1 0 (by omega)
      omega
    · rw [hcls_eq]
      exact (s3 hz).2
  refine ⟨?_, ?_, ?_⟩
  · by_cases hz : bm.2 = 0
    · rw [hcls_eq, s4 hz]
      omega
    · rw [hcls_eq]
      exact (s3 hz).1
  · intro c hc
    rw [hmax]
    exact s1 c hc
  · intro c hc
    rw [hmax]
    rw [hcls_eq] at hc
    exact s2 c hc

/-- A concrete two-tree model whose trees are single leaves labelled
class 1. -/
def cModel2 : RF_Model :=
  { trees :=
      [{ nodes := [{ feature_idx := 0, node_type := 129, threshold := 0
                     left_child := 0, right_child := 0 }]
         n_nodes := 1, root_idx := 0 },
       { nodes := [{ feature_idx := 0, node_type := 129, threshold := 0
                     left_child := 0, right_child := 0 }]
         n_nodes := 1, root_idx := 0 }]
    n_trees := 2, n_features := 1, n_classes := 3
    feature_scale := [0], feature_offset := [0] }

/-- C2 witness: the argmax and tie-break statement applied to the
concrete two-tree model, which predicts class 1 with confidence 100. -/
theorem c2_witness :
    (1 ≤ cModel2.n_classes ∧ cModel2.n_classes ≤ 29 ∧
      RF_Predict cModel2 [0] 5 = some (1, 100)) ∧
    (1 < cModel2.n_classes ∧
      (∀ c, c < cModel2.n_classes →
        (votesOf cModel2 [0] 5).getD c 0 ≤ (votesOf cModel2 [0] 5).getD 1 0) ∧
      (∀ c, c < 1 →
        (votesOf cModel2 [0] 5).getD c 0 < (votesOf cModel2 [0] 5).getD 1 0)) :=
  ⟨⟨by decide, by decide, by decide⟩,
    c2_argmax_tiebreak cModel2 [0] 5 1 100 (by decide) (by decide) (by decide)⟩

/-- C4: for every model with at least one tree and at least one class,
whenever RF_Predict terminates the confidence it writes equals
floor(100 × winning_votes / total_trees) — the winning-class tally
entry times 100, integer-divided by the tree count — and therefore
always lies within [0, 100]. -/
theorem c4_confidence (m : RF_Model) (fixedRaw : List Int) (fuel : Nat)
    (cls conf : Nat) (htrees : 1 ≤ m.n_trees) (hcls : 1 ≤ m.n_classes)
    (hp : RF_Predict m fixedRaw fuel = some (cls, conf)) :
    conf = 100 * (votesOf m fixedRaw fuel).getD cls 0 / m.n_trees ∧
    conf ≤ 100 := by
  obtain ⟨preds, _, hv, hlen, hcls_eq, hconf⟩ :=
    RF_Predict_eq m fixedRaw fuel cls conf hp
  obtain ⟨s1, _, s3, s4⟩ := argmaxLoop_spec (tally preds m.n_classes) m.n_classes
  set bm := argmaxLoop (tally preds m.n_classes) m.n_classes with hbm
  have hmax : (tally preds m.n_classes).getD cls 0 = bm.2 := by
    by_cases hz : bm.2 = 0
    · rw [hcls_eq, s4 hz, hz]
      have := s1 0 (by omega)
      omega
    · rw [hcls_eq]
      exact (s3 hz).2
  have hle : bm.2 ≤ m.n_trees := by
    rw [← hmax]
    exact hlen ▸ tally_getD_le preds m.n_classes cls
  constructor
  · rw [hconf, hv, hmax, Nat.mul_comm]
  · rw [hconf]
    calc bm.2 * 100 / m.n_trees ≤ m.n_trees * 100 / m.n_trees :=
          Nat.div_le_div_right (Nat.mul_le_mul_right 100 hle)
      _ = 100 := by
          rw [Nat.mul_comm]
          exact Nat.mul_div_cancel 100 (by omega)

/-- C4 witness: the confidence formula and bound on the concrete
two-tree model. -/
theorem c4_witness :
    (1 ≤ cModel2.n_trees ∧ 1 ≤ cModel2.n_classes ∧
      RF_Predict cModel2 [0] 5 = some (1, 100)) ∧
    (100 = 100 * (votesOf cModel2 [0] 5).getD 1 0 / cModel2.n_trees ∧
      100 ≤ 100) :=
  ⟨⟨by decide, by decide, by decide⟩,
    c4_confidence cModel2 [0] 5 1 100 (by decide) (by decide) (by decide)⟩

/-! ### Traversal lemmas for the fail-closed guard and access bounds -/

theorem childOf_or (tree : RF_Tree) (features : List Int) (idx : Nat) :
    childOf tree features idx = (getNode tree idx).left_child ∨
      childOf tree features idx = (getNode tree idx).right_child := by
  unfold childOf
  dsimp only
  split
  · exact Or.inl rfl
  · exact Or.inr rfl

theorem treeTraverse_succ (tree : RF_Tree) (features : List Int)
    (fuel idx : Nat) :
    treeTraverse tree features (fuel + 1) idx =
      if isLeafNode (getNode tree idx) then
        TreeResult.leaf (leafLabel (getNode tree idx))
      else if tree.n_nodes ≤ childOf tree features idx then
        TreeResult.failClosed
      else treeTraverse tree features fuel (childOf tree features idx) :=
  rfl

theorem accessTrace_zero (tree : RF_Tree) (features : List Int)
    (idx : Nat) : accessTrace tree features 0 idx = [] :=
  rfl

theorem accessTrace_succ (tree : RF_Tree) (features : List Int)
    (fuel idx : Nat) :
    accessTrace tree features (fuel + 1) idx =
      if isLeafNode (getNode tree idx) then [idx]
      else if tree.n_nodes ≤ childOf tree features idx then [idx]
      else idx :: accessTrace tree features fuel (childOf tree features idx) :=
  rfl

/-- The first dereferenced index of any run with positive fuel is the
start index itself: the loop reads the node before any bounds check. -/
theorem accessTrace_head (tree : RF_Tree) (features : List Int)
    (fuel idx : Nat) :
    (accessTrace tree features (fuel + 1) idx).head? = some idx := by
  rw [accessTrace_succ]
  by_cases hleaf : isLeafNode (getNode tree idx)
  · rw [if_pos hleaf]
    rfl
  · rw [if_neg hleaf]
    by_cases hg : tree.n_nodes ≤ childOf tree features idx
    · rw [if_pos hg]
      rfl
    · rw [if_neg hg]
      rfl

/-- Starting from an in-bounds index, every dereference stays below
the node count: the child-index guard runs before the loop reads the
child. -/
theorem accessTrace_bounded (tree : RF_Tree) (features : List Int) :
    ∀ fuel idx, idx < tree.n_nodes →
      ∀ j ∈ accessTrace tree features fuel idx, j < tree.n_nodes := by
  intro fuel
  induction fuel with
  | zero =>
    intro idx h j hj
    rw [accessTrace_zero] at hj
    exact absurd hj (List.not_mem_nil j)
  | succ fuel ih =>
    intro idx h j hj
    rw [accessTrace_succ] at hj
    by_cases hleaf : isLeafNode (getNode tree idx)
    · rw [if_pos hleaf] at hj
      rw [List.mem_singleton] at hj
      omega
    · rw [if_neg hleaf] at hj
      by_cases hg : tree.n_nodes ≤ childOf tree features idx
      · rw [if_pos hg] at hj
        rw [List.mem_singleton] at hj
        omega
      · rw [if_neg hg] at hj
        rcases List.mem_cons.mp hj with rfl | hmem
        · omega
        · exact ih (childOf tree features idx) (by omega) j hmem

/-- A bound on the traversal depth below a node, for every feature
vector: a leaf node terminates at once, and an internal node whose
in-range children all admit the bound d admits d + 1 (a child index
at or past the node count terminates through the guard instead).
This captures the model invariant of a validated tree: child indices
in range, depth bounded, no cycles among reachable nodes. -/
inductive DepthBounded (tree : RF_Tree) : Nat → Nat → Prop where
  | leaf (i d : Nat) : isLeafNode (getNode tree i) = true →
      DepthBounded tree i (d + 1)
  | internal (i d : Nat) : isLeafNode (getNode tree i) = false →
      (∀ c, (c = (getNode tree i).left_child ∨
              c = (getNode tree i).right_child) →
        c < tree.n_nodes → DepthBounded tree c d) →
      DepthBounded tree i (d + 1)

theorem depthBounded_no_timeout (tree : RF_Tree) (features : List Int)
    (i d : Nat) (hb : DepthBounded tree i d) :
    ∀ fuel, d ≤ fuel → treeTraverse tree features fuel i ≠ .timeout := by
  induction hb with
  | leaf i d hl =>
    intro fuel hf
    cases fuel with
    | zero => omega
    | succ f =>
      rw [treeTraverse_succ, if_pos hl]
      exact fun h => TreeResult.noConfusion h
  | internal i d hnl hch ih =>
    intro fuel hf
    cases fuel with
    | zero => omega
    | succ f =>
      rw [treeTraverse_succ, if_neg (by rw [hnl]; exact Bool.false_ne_true)]
      by_cases hg : tree.n_nodes ≤ childOf tree features i
      · rw [if_pos hg]
        exact fun h => TreeResult.noConfusion h
      · rw [if_neg hg]
        exact ih (childOf tree features i) (childOf_or tree features i)
          (by omega) f (by omega)

theorem depthBounded_trace_le (tree : RF_Tree) (features : List Int)
    (i d : Nat) (hb : DepthBounded tree i d) :
    ∀ fuel, (accessTrace tree features fuel i).length ≤ d := by
  induction hb with
  | leaf i d hl =>
    intro fuel
    cases fuel with
    | zero =>
      rw [accessTrace_zero]
      simp
    | succ f =>
      rw [accessTrace_succ, if_pos hl]
      simp
  | internal i d hnl hch ih =>
    intro fuel
    cases fuel with
    | zero =>
      rw [accessTrace_zero]
      simp
    | succ f =>
      rw [accessTrace_succ, if_neg (by rw [hnl]; exact Bool.false_ne_true)]
      by_cases hg : tree.n_nodes ≤ childOf tree features i
      · rw [if_pos hg]
        simp
      · rw [if_neg hg]
        rw [List.length_cons]
        have := ih (childOf tree features i) (childOf_or tree features i)
          (by omega) f
        omega

/-- C3: for every tree satisfying the depth-bound invariant of a
validated model (children in range or caught by the guard, depth at
most d, hence no reachable cycles) and every feature vector, the
iterative traversal terminates within d node visits — running it with
fuel d never times out — and with any fuel it dereferences at most d
nodes before reaching a leaf or the fail-closed branch. -/
theorem c3_termination (tree : RF_Tree) (d : Nat) (features : List Int)
    (hb : DepthBounded tree tree.root_idx d) :
    treeTraverse tree features d tree.root_idx ≠ .timeout ∧
    ∀ fuel, (accessTrace tree features fuel tree.root_idx).length ≤ d :=
  ⟨depthBounded_no_timeout tree features tree.root_idx d hb d (Nat.le_refl d),
    fun fuel => depthBounded_trace_le tree features tree.root_idx d hb fuel⟩

/-- A concrete single-leaf tree for the termination witness. -/
def wTree : RF_Tree :=
  { nodes := [{ feature_idx := 0, node_type := 128, threshold := 0
                left_child := 0, right_child := 0 }]
    n_nodes := 1, root_idx := 0 }

/-- C3 witness: the single-leaf tree has depth bound 1 and the
traversal on it never times out with fuel 1, visiting at most one
node. -/
theorem c3_witness :
    DepthBounded wTree wTree.root_idx 1 ∧
    (treeTraverse wTree [] 1 wTree.root_idx ≠ .timeout ∧
      ∀ fuel, (accessTrace wTree [] fuel wTree.root_idx).length ≤ 1) :=
  have hb : DepthBounded wTree wTree.root_idx 1 :=
    DepthBounded.leaf 0 0 (by decide)
  ⟨hb, c3_termination wTree 1 [] hb⟩

/-- A concrete single-internal-node tree whose children point past the
node count, and the one-tree model around it. -/
def cTree : RF_Tree :=
  { nodes := [{ feature_idx := 0, node_type := 0, threshold := 0
                left_child := 5, right_child := 5 }]
    n_nodes := 1, root_idx := 0 }

def cModel : RF_Model :=
  { trees := [cTree], n_trees := 1, n_features := 1, n_classes := 3
    feature_scale := [0], feature_offset := [0] }

/-- C1 counterexample: on the one-tree model whose root steps to the
malformed child index 5 ≥ n_nodes = 1, the traversal takes the
fail-closed branch and the tree votes class 0, but RF_Predict then
reports that vote as a full win: it returns class 0 with confidence
(1 × 100) / 1 = 100, not confidence 0 as the claim states. -/
theorem c1_counterexample :
    treeTraverse cTree [0] 10 cTree.root_idx = .failClosed ∧
    normalizedFeatures cModel [0] = [0] ∧
    RF_Predict cModel [0] 10 = some (0, 100) ∧ (100 : Nat) ≠ 0 := by
  decide

/-- C1 amended: for every tree whose traversal starts in bounds and
every feature vector, whenever the iterative traversal reaches a child
index at or past the node count, RF_TreePredict immediately returns
class 0 as that tree's vote, and no dereference ever touches a node
outside the first n_nodes entries; the surrounding RF_Predict counts
the fail-closed vote like any other, so the reported confidence is the
normal vote share rather than a forced 0. -/
theorem c1_amended (tree : RF_Tree) (features : List Int) (fuel : Nat)
    (h : tree.root_idx < tree.n_nodes) :
    (∀ j ∈ accessTrace tree features fuel tree.root_idx,
      j < tree.n_nodes) ∧
    (treeTraverse tree features fuel tree.root_idx = .failClosed →
      RF_TreePredict tree features fuel = some 0) := by
  refine ⟨accessTrace_bounded tree features fuel tree.root_idx h,
    fun hf => ?_⟩
  unfold RF_TreePredict
  rw [hf]

/-- C1 witness: the amended statement on the concrete malformed-child
tree, whose root index 0 is in bounds. -/
theorem c1_witness :
    cTree.root_idx < cTree.n_nodes ∧
    ((∀ j ∈ accessTrace cTree [0] 10 cTree.root_idx, j < cTree.n_nodes) ∧
      (treeTraverse cTree [0] 10 cTree.root_idx = .failClosed →
        RF_TreePredict cTree [0] 10 = some 0)) :=
  ⟨by decide, c1_amended cTree [0] 10 (by decide)⟩

/-- C10: RF_TreePredict dereferences the node at root_idx before any
bounds check and guards child indices only after stepping; hence for
every tree and feature vector, when root_idx < n_nodes every
dereference of the run stays below n_nodes, while when
root_idx ≥ n_nodes the very first dereference is root_idx itself,
already out of bounds (this covers n_nodes = 0). -/
theorem c10_bounds_precondition (tree : RF_Tree) (features : List Int)
    (fuel : Nat) :
    (tree.root_idx < tree.n_nodes →
      ∀ j ∈ accessTrace tree features fuel tree.root_idx,
        j < tree.n_nodes) ∧
    (tree.n_nodes ≤ tree.root_idx →
      (accessTrace tree features (fuel + 1) tree.root_idx).head? =
        some tree.root_idx ∧ ¬ tree.root_idx < tree.n_nodes) :=
  ⟨fun h => accessTrace_bounded tree features fuel tree.root_idx h,
    fun h =>
      ⟨accessTrace_head tree features fuel tree.root_idx, by omega⟩⟩

/-- A concrete tree with zero nodes, whose root index 0 is already out
of bounds. -/
def wBad : RF_Tree := { nodes := [], n_nodes := 0, root_idx := 0 }

/-- C10 witness: on the single-leaf tree the in-bounds half applies,
and on the empty tree the out-of-bounds half shows the first
dereference is the out-of-range root. -/
theorem c10_witness :
    (wTree.root_idx < wTree.n_nodes ∧
      ∀ j ∈ accessTrace wTree [] 3 wTree.root_idx, j < wTree.n_nodes) ∧
    (wBad.n_nodes ≤ wBad.root_idx ∧
      (accessTrace wBad [] (3 + 1) wBad.root_idx).head? =
        some wBad.root_idx ∧ ¬ wBad.root_idx < wBad.n_nodes) :=
  ⟨⟨by decide, (c10_bounds_precondition wTree [] 3).1 (by decide)⟩,
    ⟨by decide, (c10_bounds_precondition wBad [] 3).2 (by decide)⟩⟩

/-! ### Windower lemmas -/

theorem numWindows_le (n : Nat) : 128 * numWindows n ≤ n := by
  unfold numWindows
  split_ifs with h
  · omega
  · omega

theorem numWindows_rem_le (n : Nat) : n - 128 * numWindows n ≤ 255 := by
  unfold numWindows
  split_ifs with h
  · omega
  · omega

theorem numWindows_lower (n : Nat) (h : 1 ≤ numWindows n) :
    128 * numWindows n + 128 ≤ n := by
  unfold numWindows at h ⊢
  split_ifs with hn
  · rw [if_pos hn] at h
    omega
  · rw [if_neg hn] at h
    omega

theorem numWindows_succ_eq (n : Nat) :
    numWindows (n + 1) =
      if n - 128 * numWindows n = 255 then numWindows n + 1
      else numWindows n := by
  unfold numWindows
  split_ifs with h1 h2 h2 <;> omega

theorem windowStep_eq (s : WindowState) (x : Int) :
    windowStep s x =
      if 256 ≤ (s.buf ++ [x]).length then
        { buf := (s.buf ++ [x]).drop 128, wins := s.wins ++ [s.buf ++ [x]] }
      else { buf := s.buf ++ [x], wins := s.wins } :=
  rfl

/-- Appending one sample does not change a 256-sample slice taken
wholly inside the original stream. -/
theorem slice_append (l : List Int) (a : Int) (m : Nat)
    (h : m + 256 ≤ l.length) :
    ((l ++ [a]).drop m).take 256 = (l.drop m).take 256 := by
  rw [List.drop_append_of_le_length (by omega)]
  rw [List.take_append_of_le_length (by rw [List.length_drop]; omega)]

/-- The windower state after any stream: the emitted windows are the
256-sample slices starting at multiples of 128, and the buffer holds
exactly the samples past the last emitted slide. -/
theorem windowRun_spec (xs : List Int) :
    (windowRun xs).wins =
      (List.range (numWindows xs.length)).map
        (fun k => (xs.drop (128 * k)).take 256) ∧
    (windowRun xs).buf = xs.drop (128 * numWindows xs.length) := by
  induction xs using List.reverseRecOn with
  | nil =>
    constructor <;> simp [windowRun, numWindows]
  | append_singleton l a ih =>
    obtain ⟨ih1, ih2⟩ := ih
    have hrun : windowRun (l ++ [a]) = windowStep (windowRun l) a := by
      unfold windowRun
      rw [List.foldl_append]
      rfl
    have hlen' : (l ++ [a]).length = l.length + 1 := by simp
    have hble : 128 * numWindows l.length ≤ l.length := numWindows_le l.length
    have hrem : l.length - 128 * numWindows l.length ≤ 255 :=
      numWindows_rem_le l.length
    have hbuflen :
        (windowRun l).buf.length = l.length - 128 * numWindows l.length := by
      rw [ih2, List.length_drop]
    have hbuf0 :
        (windowRun l).buf ++ [a] = (l ++ [a]).drop (128 * numWindows l.length) := by
      rw [ih2, List.drop_append_of_le_length hble]
    have hlen0 :
        ((windowRun l).buf ++ [a]).length =
          l.length - 128 * numWindows l.length + 1 := by
      rw [List.length_append, hbuflen]
      rfl
    have hold : ∀ k, k < numWindows l.length →
        (((l ++ [a]).drop (128 * k)).take 256) = ((l.drop (128 * k)).take 256) := by
      intro k hk
      have hlow : 128 * numWindows l.length + 128 ≤ l.length :=
        numWindows_lower l.length (by omega)
      exact slice_append l a (128 * k) (by omega)
    rw [hrun, windowStep_eq, hlen']
    by_cases hemit : 256 ≤ ((windowRun l).buf ++ [a]).length
    · rw [if_pos hemit]
      have h255 : l.length - 128 * numWindows l.length = 255 := by omega
      have hnw : numWindows (l.length + 1) = numWindows l.length + 1 := by
        rw [numWindows_succ_eq, if_pos h255]
      rw [hnw]
      constructor
      · rw [List.range_succ, List.map_append, ih1]
        dsimp only
        congr 1
        · exact List.map_congr_left fun k hk =>
            ((hold k (List.mem_range.mp hk)).symm)
        · rw [hbuf0]
          simp only [List.map_cons, List.map_nil]
          rw [List.take_of_length_le (by rw [List.length_drop, hlen']; omega)]
      · dsimp only
        rw [hbuf0, List.drop_drop, Nat.mul_succ]
    · rw [if_neg hemit]
      have hne : l.length - 128 * numWindows l.length ≠ 255 := by omega
      have hnw : numWindows (l.length + 1) = numWindows l.length := by
        rw [numWindows_succ_eq, if_neg hne]
      rw [hnw]
      constructor
      · rw [ih1]
        exact List.map_congr_left fun k hk =>
          ((hold k (List.mem_range.mp hk)).symm)
      · dsimp only
        exact hbuf0

theorem getD_map_range (f : Nat → List Int) (m k : Nat) (hk : k < m) :
    ((List.range m).map f).getD k [] = f k := by
  have hlen : k < ((List.range m).map f).length := by simp [hk]
  rw [List.getD_eq_getElem _ _ hlen, List.getElem_map, List.getElem_range]

/-- C6: for a continuous stream of N ≥ 256 samples with window size
256 and 50% overlap (slide 128), the windower emits exactly
floor((N − 256) / 128) + 1 windows, each of length 256, and for every
pair of consecutive emitted windows the first 128 samples of the later
window equal the last 128 samples of the earlier one. -/
theorem c6_windowing (xs : List Int) (h : 256 ≤ xs.length) :
    (windowRun xs).wins.length = (xs.length - 256) / 128 + 1 ∧
    (∀ k, k < (windowRun xs).wins.length →
      ((windowRun xs).wins.getD k []).length = 256) ∧
    (∀ k, k + 1 < (windowRun xs).wins.length →
      ((windowRun xs).wins.getD (k + 1) []).take 128 =
        ((windowRun xs).wins.getD k []).drop 128) := by
  obtain ⟨hw, _⟩ := windowRun_spec xs
  have hnw : numWindows xs.length = (xs.length - 256) / 128 + 1 := by
    unfold numWindows
    rw [if_neg (by omega)]
  have hcount : (windowRun xs).wins.length = (xs.length - 256) / 128 + 1 := by
    rw [hw, List.length_map, List.length_range, hnw]
  have hfit : ∀ k, k < (xs.length - 256) / 128 + 1 →
      128 * k + 256 ≤ xs.length := by
    intro k hk
    have := Nat.div_mul_le_self (xs.length - 256) 128
    omega
  refine ⟨hcount, ?_, ?_⟩
  · intro k hk
    rw [hcount] at hk
    rw [hw, hnw, getD_map_range _ _ _ hk]
    have := hfit k hk
    rw [List.length_take, List.length_drop]
    omega
  · intro k hk
    rw [hcount] at hk
    rw [hw, hnw, getD_map_range _ _ _ (by omega),
      getD_map_range _ _ _ (by omega)]
    rw [List.take_take, List.drop_take, List.drop_drop]
    have h1 : min 128 256 = 128 := by decide
    have h2 : (256 : Nat) - 128 = 128 := by decide
    rw [h1, h2, Nat.mul_succ]

/-- C6 witness: the windowing statement on a concrete stream of 384
samples, which yields two windows. -/
theorem c6_witness :
    256 ≤ (List.replicate 384 (0 : Int)).length ∧
    ((windowRun (List.replicate 384 (0 : Int))).wins.length =
        ((List.replicate 384 (0 : Int)).length - 256) / 128 + 1 ∧
      (∀ k, k < (windowRun (List.replicate 384 (0 : Int))).wins.length →
        ((windowRun (List.replicate 384 (0 : Int))).wins.getD k []).length
          = 256) ∧
      (∀ k,
        k + 1 < (windowRun (List.replicate 384 (0 : Int))).wins.length →
        ((windowRun (List.replicate 384 (0 : Int))).wins.getD (k + 1)
            []).take 128 =
          ((windowRun (List.replicate 384 (0 : Int))).wins.getD k
            []).drop 128)) :=
  ⟨by rw [List.length_replicate]; omega,
    c6_windowing (List.replicate 384 (0 : Int))
      (by rw [List.length_replicate]; omega)⟩

end EmgRf
